import Mathlib

set_option autoImplicit false

/-!
Verification of the candycache in-memory TTL cache (src/candycache.go).

The Go code is shallowly embedded as follows:
* `interface{}` payloads become the inductive `GoVal` universe (the kinds the
  `isize` walker distinguishes: nil, fixed-width primitives, strings, slices,
  arrays, maps, structs);
* the Go map `map[string]Item` becomes an association list
  `List (String × Item)`; Go's map-key uniqueness is the predicate `Cache.wf`;
* `time.Now().Unix()` becomes an explicit `now : Int` parameter;
* a `time.Duration` ttl becomes its value in nanoseconds (`Int`), and
  `int64(ttl.Seconds())` becomes truncated integer division by 10^9.
-/

namespace Candycache

/-- Go `interface{}` values as stored in the cache, covering the kinds that
`isize` (src/candycache.go:182-209) distinguishes.  Fixed-width primitive
kinds hit the `default: reflect.TypeOf(i).Size()` branch; strings, slices,
arrays, maps and structs are walked recursively; `nil` is checked first. -/
inductive GoVal where
  | vnil
  | vbool (b : Bool)
  | vint (n : Int)
  | vint8 (n : Int)
  | vint16 (n : Int)
  | vint32 (n : Int)
  | vint64 (n : Int)
  | vuint (n : Nat)
  | vuint8 (n : Nat)
  | vstr (s : String)
  | vslice (xs : List GoVal)
  | varray (xs : List GoVal)
  | vmap (kvs : List (GoVal × GoVal))
  | vstruct (fields : List GoVal)

/-- Item (src/candycache.go:17-20): a destruction timestamp in Unix seconds
and the stored data. -/
structure Item where
  destroyTimestamp : Int
  data : GoVal

/-- Cache (src/candycache.go:24-28): the storage map and the cleanup
interval in nanoseconds.  The mutex only serializes access and has no
functional content in a sequential embedding. -/
structure Cache where
  storage : List (String × Item)
  cleanupInterval : Int

/-- Go map lookup `c.storage[key]` on the association-list model. -/
def slookup (key : String) : List (String × Item) → Option Item
  | [] => none
  | kv :: rest => if kv.1 = key then some kv.2 else slookup key rest

/-- Go map assignment `c.storage[key] = item`: replace the binding for
`key` if present, append it otherwise. -/
def mapSet (key : String) (item : Item) : List (String × Item) → List (String × Item)
  | [] => [(key, item)]
  | kv :: rest => if kv.1 = key then (key, item) :: rest else kv :: mapSet key item rest

/-- Go map deletion `delete(c.storage, key)`: drop the binding for `key`. -/
def mapDelete (key : String) : List (String × Item) → List (String × Item)
  | [] => []
  | kv :: rest => if kv.1 = key then rest else kv :: mapDelete key rest

/-- Go map keys are unique; the association list represents a map exactly
when its keys are nodup. -/
def Cache.wf (c : Cache) : Prop := (c.storage.map Prod.fst).Nodup

instance (c : Cache) : Decidable c.wf := by unfold Cache.wf; infer_instance

/-- Cacher (src/candycache.go:32-45) without the background goroutine:
a fresh cache with empty storage and the given cleanup interval. -/
def Cacher (cleanupInterval : Int) : Cache :=
  { storage := [], cleanupInterval := cleanupInterval }

/-- Cleanup (src/candycache.go:58-67): every item with
`destroyTimestamp <= time.Now().Unix()` is deleted; deleting while ranging
over a Go map is exactly a filter. -/
def Cache.cleanup (c : Cache) (now : Int) : Cache :=
  { c with storage := c.storage.filter fun kv => !decide (kv.2.destroyTimestamp ≤ now) }

/-- Flush (src/candycache.go:70-77): delete every key. -/
def Cache.flush (c : Cache) : Cache :=
  { c with storage := [] }

/-- Get (src/candycache.go:80-92): plain map lookup; `(nil, false)` when
absent, `(item.data, true)` when present — expiry is never consulted. -/
def Cache.get (c : Cache) (key : String) : GoVal × Bool :=
  match slookup key c.storage with
  | none => (.vnil, false)
  | some item => (item.data, true)

/-- Delete (src/candycache.go:95-106): error `"key not found"` when the key
is absent, otherwise remove it and return nil error. -/
def Cache.delete (c : Cache) (key : String) : Option String × Cache :=
  if (slookup key c.storage).isSome then
    (none, { c with storage := mapDelete key c.storage })
  else
    (some "key not found", c)

/-- Nanoseconds per second: a `time.Duration` counts nanoseconds. -/
def nsPerSecond : Int := 1000000000

/-- Nanoseconds per second as a natural number, for divisor positions. -/
def nsPerSecondNat : Nat := 1000000000

/-!
Exact model of the binary64 floating-point computation inside Go's
`Duration.Seconds`, namely `float64(sec) + float64(nsec)/1e9`, and of the
`int64(...)` conversion applied to it by `Add`.  Every finite float64 is a
dyadic rational; each float operation produces the exact mathematical
result rounded to the nearest representable value (53-bit significand),
ties to even.  Durations are int64 nanoseconds, so every value arising
here lies far inside the normal finite range of float64 — no overflow,
underflow or subnormal is reachable, and rounding onto the grid
`2 ^ (e - 52)`, where `2 ^ e ≤ |x| < 2 ^ (e + 1)`, is the whole story.
-/

/-- Fuel-driven bit length: `bitLen n` is the number of binary digits of
`n`, so `2 ^ (bitLen n - 1) ≤ n < 2 ^ bitLen n` for positive `n`.  The
fuel makes the recursion structural, hence kernel-computable. -/
def bitLenAux : Nat → Nat → Nat
  | 0, _ => 0
  | fuel + 1, n => if n = 0 then 0 else bitLenAux fuel (n / 2) + 1

def bitLen (n : Nat) : Nat := bitLenAux n n

/-- Round `P / Q` to the nearest integer, ties to even. -/
def rheDiv (P Q : Nat) : Nat :=
  if 2 * (P % Q) < Q then P / Q
  else if Q < 2 * (P % Q) then P / Q + 1
  else if (P / Q) % 2 = 0 then P / Q else P / Q + 1

/-- A dyadic rational `m * 2 ^ e`: the exact value of a finite float64. -/
structure Dy where
  m : Int
  e : Int

/-- The rational value of a dyadic. -/
def Dy.val (x : Dy) : ℚ := (x.m : ℚ) * (2 : ℚ) ^ x.e

/-- Decides `2 ^ t ≤ a / q` by exact integer cross-multiplication. -/
def pow2le (a q : Nat) (t : Int) : Bool :=
  if 0 ≤ t then q * 2 ^ t.toNat ≤ a else q ≤ a * 2 ^ (-t).toNat

/-- The floor of `log2 (a / q)` for positive `a`, `q`: the bit lengths
leave two candidates and `pow2le` picks the right one. -/
def expOf (a q : Nat) : Int :=
  if pow2le a q ((bitLen a : Int) - (bitLen q : Int)) then
    (bitLen a : Int) - (bitLen q : Int)
  else (bitLen a : Int) - (bitLen q : Int) - 1

/-- Round the non-negative rational `a / q` to the binary64 value nearest
to it, ties to even: with `e` the floor of `log2 (a / q)`, the result is
`k * 2 ^ (e - 52)` where `k` is the half-even rounding of
`(a / q) / 2 ^ (e - 52)`. -/
def roundPos (a q : Nat) : Dy :=
  if a = 0 then ⟨0, 0⟩
  else if expOf a q ≤ 52 then
    ⟨(rheDiv (a * 2 ^ (52 - expOf a q).toNat) q : Nat), expOf a q - 52⟩
  else ⟨(rheDiv a (q * 2 ^ (expOf a q - 52).toNat) : Nat), expOf a q - 52⟩

/-- Round the rational `p / q` to the nearest binary64 value, ties to
even; rounding is symmetric in the sign. -/
def roundRat (p : Int) (q : Nat) : Dy :=
  if 0 ≤ p then roundPos p.toNat q
  else ⟨-(roundPos (-p).toNat q).m, (roundPos (-p).toNat q).e⟩

/-- Go `float64(n)` for an int64 `n`: `n / 1` correctly rounded. -/
def floatOfInt (n : Int) : Dy := roundRat n 1

/-- Binary64 division of a float by the exactly representable natural
constant `n` (the `1e9` literal in `Seconds`): exact quotient, rounded. -/
def floatDivNat (x : Dy) (n : Nat) : Dy :=
  if 0 ≤ x.e then roundRat (x.m * 2 ^ x.e.toNat) n
  else roundRat x.m (n * 2 ^ (-x.e).toNat)

/-- Binary64 addition: the exact dyadic sum, rounded. -/
def floatAdd (x y : Dy) : Dy :=
  let e := min x.e y.e
  let s : Int := x.m * 2 ^ (x.e - e).toNat + y.m * 2 ^ (y.e - e).toNat
  if 0 ≤ e then roundRat (s * 2 ^ e.toNat) 1
  else roundRat s (2 ^ (-e).toNat)

/-- Go `int64(f)` for a finite float64 `f` in the int64 range: truncation
toward zero. -/
def truncDy (x : Dy) : Int :=
  if 0 ≤ x.e then x.m * 2 ^ x.e.toNat else x.m.tdiv (2 ^ (-x.e).toNat)

/-- Go `Duration.Seconds()`: `sec := d / 1e9` and `nsec := d % 1e9` with
Go's truncating int64 division and remainder, then
`float64(sec) + float64(nsec)/1e9` in binary64 arithmetic. -/
def durationSecondsF (d : Int) : Dy :=
  floatAdd (floatOfInt (d.tdiv nsPerSecond))
    (floatDivNat (floatOfInt (d.tmod nsPerSecond)) nsPerSecondNat)

/-- Go `int64(ttl.Seconds())` as computed by `Add`
(src/candycache.go:117): the float64 seconds value truncated to int64. -/
def ttlSeconds (ttl : Int) : Int := truncDy (durationSecondsF ttl)

/-- Add (src/candycache.go:112-120): unconditionally store a new Item whose
`destroyTimestamp` is `time.Now().Unix() + int64(ttl.Seconds())`. -/
def Cache.add (c : Cache) (now : Int) (key : String) (data : GoVal) (ttl : Int) : Cache :=
  { c with storage := mapSet key ⟨now + ttlSeconds ttl, data⟩ c.storage }

/-- Count (src/candycache.go:123-128): `len(c.storage)`. -/
def Cache.count (c : Cache) : Nat := c.storage.length

/-- isize (src/candycache.go:182-209): nil is 0; strings, slices and arrays
sum the sizes of their elements (each string byte is a `uint8` of size 1, so
a string contributes its byte length); maps sum key and value sizes; structs
sum field sizes; every other kind returns `reflect.TypeOf(i).Size()`, the
fixed width of the type on a 64-bit platform. -/
def isize : GoVal → Nat
  | .vnil => 0
  | .vbool _ => 1
  | .vint _ => 8
  | .vint8 _ => 1
  | .vint16 _ => 2
  | .vint32 _ => 4
  | .vint64 _ => 8
  | .vuint _ => 8
  | .vuint8 _ => 1
  | .vstr s => s.utf8ByteSize
  | .vslice [] => 0
  | .vslice (x :: xs) => isize x + isize (.vslice xs)
  | .varray [] => 0
  | .varray (x :: xs) => isize x + isize (.varray xs)
  | .vmap [] => 0
  | .vmap ((k, v) :: kvs) => (isize k + isize v) + isize (.vmap kvs)
  | .vstruct [] => 0
  | .vstruct (f :: fs) => isize f + isize (.vstruct fs)

/-- Size (src/candycache.go:147-157): over every entry, sum
`isize(key) + isize(item.data) + isize(item.destroyTimestamp)`; the key is a
Go string and the timestamp an `int64`. -/
def Cache.size (c : Cache) : Nat :=
  c.storage.foldl
    (fun acc kv => acc + (isize (.vstr kv.1) + isize kv.2.data + isize (.vint64 kv.2.destroyTimestamp)))
    0

/-- Modelled from the spec: `Save` is documented in the repository README
but its source file is not under src.  Per spec §4.3 it encodes every
`(key, value, expiresAt)` triple of the store, losslessly, into the sink;
the dump is modelled as the sequence of triples itself. -/
def Cache.save (c : Cache) : List (String × GoVal × Int) :=
  c.storage.map fun kv => (kv.1, kv.2.data, kv.2.destroyTimestamp)

/-- Modelled from the spec: `Load` is documented in the repository README
but its source file is not under src.  Per spec §4.3 it decodes the dump
into `(key, value, expiresAt)` triples and replaces the store's entire
mapping with them (a full overwrite, not a merge). -/
def Cache.load (c : Cache) (dump : List (String × GoVal × Int)) : Cache :=
  { c with storage := dump.map fun t => (t.1, ⟨t.2.2, t.2.1⟩) }

/-! Helper lemmas about the association-list model of the Go map. -/

theorem slookup_mapSet_self (key : String) (item : Item) (l : List (String × Item)) :
    slookup key (mapSet key item l) = some item := by
  induction l with
  | nil => simp [mapSet, slookup]
  | cons kv rest ih =>
    by_cases h : kv.1 = key
    · simp [mapSet, h, slookup]
    · simp [mapSet, h, slookup, ih]

theorem slookup_mapSet_ne (key key2 : String) (item : Item) (l : List (String × Item))
    (hne : key2 ≠ key) :
    slookup key2 (mapSet key item l) = slookup key2 l := by
  have h2 : key ≠ key2 := fun he => hne he.symm
  induction l with
  | nil => simp [mapSet, slookup, h2]
  | cons kv rest ih =>
    by_cases h : kv.1 = key
    · simp [mapSet, h, slookup, h2]
    · simp [mapSet, h, slookup, ih]

theorem slookup_mapDelete_ne (key key2 : String) (l : List (String × Item))
    (hne : key2 ≠ key) :
    slookup key2 (mapDelete key l) = slookup key2 l := by
  have h2 : key ≠ key2 := fun he => hne he.symm
  induction l with
  | nil => simp [mapDelete]
  | cons kv rest ih =>
    by_cases h : kv.1 = key
    · simp [mapDelete, h, slookup, h2]
    · simp [mapDelete, h, slookup, ih]

theorem slookup_eq_none_of_not_mem (key : String) (l : List (String × Item))
    (h : key ∉ l.map Prod.fst) : slookup key l = none := by
  induction l with
  | nil => rfl
  | cons kv rest ih =>
    simp only [List.map_cons, List.mem_cons, not_or] at h
    have h1 : kv.1 ≠ key := fun he => h.1 he.symm
    simp [slookup, h1, ih h.2]

theorem slookup_filter (q : Item → Bool) (key : String) (l : List (String × Item))
    (h : (l.map Prod.fst).Nodup) :
    slookup key (l.filter fun kv => q kv.2) =
      (slookup key l).bind fun item => if q item then some item else none := by
  induction l with
  | nil => simp [slookup]
  | cons kv rest ih =>
    simp only [List.map_cons, List.nodup_cons] at h
    by_cases hk : kv.1 = key
    · cases hq : q kv.2 with
      | false =>
        have hnone : slookup key (rest.filter fun kv => q kv.2) = none := by
          apply slookup_eq_none_of_not_mem
          intro hmem
          apply h.1
          rw [hk]
          exact (List.Sublist.map Prod.fst (List.filter_sublist rest)).subset hmem
        simp [List.filter_cons, hq, slookup, hk, hnone]
      | true => simp [List.filter_cons, hq, slookup, hk]
    · cases hq : q kv.2 with
      | false => simp [List.filter_cons, hq, slookup, hk, ih h.2]
      | true => simp [List.filter_cons, hq, slookup, hk, ih h.2]

theorem mapSet_map_fst (key : String) (item : Item) (l : List (String × Item)) :
    (mapSet key item l).map Prod.fst =
      if key ∈ l.map Prod.fst then l.map Prod.fst else l.map Prod.fst ++ [key] := by
  induction l with
  | nil => simp [mapSet]
  | cons kv rest ih =>
    by_cases h : kv.1 = key
    · simp [mapSet, h, List.map_cons]
    · have hne : ¬key = kv.1 := fun he => h he.symm
      simp only [mapSet, if_neg h, List.map_cons, ih, List.mem_cons, hne, false_or]
      by_cases hm : key ∈ rest.map Prod.fst <;> simp [hm]

theorem mapSet_wf (key : String) (item : Item) (l : List (String × Item))
    (h : (l.map Prod.fst).Nodup) : ((mapSet key item l).map Prod.fst).Nodup := by
  rw [mapSet_map_fst]
  by_cases hm : key ∈ l.map Prod.fst
  · rw [if_pos hm]; exact h
  · rw [if_neg hm, List.nodup_append]
    refine ⟨h, List.nodup_singleton key, ?_⟩
    intro a ha hb
    rw [List.mem_singleton] at hb
    exact hm (hb ▸ ha)

theorem tdiv_zero_of_small (a b : Int) (h1 : -b < a) (h2 : a < b) : a.tdiv b = 0 := by
  rcases le_or_lt 0 a with h | h
  · exact Int.tdiv_eq_zero_of_lt h h2
  · rw [← Int.neg_neg a, Int.neg_tdiv, Int.tdiv_eq_zero_of_lt (by omega) (by omega),
      Int.neg_zero]

theorem tmod_small (a b : Int) (h1 : -b < a) (h2 : a < b) : a.tmod b = a := by
  rw [Int.tmod_def, tdiv_zero_of_small a b h1 h2, Int.mul_zero, Int.sub_zero]

theorem bitLenAux_zero (fuel : Nat) : bitLenAux fuel 0 = 0 := by
  cases fuel <;> simp [bitLenAux]

theorem bitLenAux_spec (fuel : Nat) :
    ∀ n : Nat, 0 < n → n ≤ fuel →
      2 ^ (bitLenAux fuel n - 1) ≤ n ∧ n < 2 ^ bitLenAux fuel n := by
  induction fuel with
  | zero => intro n hn hf; omega
  | succ fuel ih =>
    intro n hn hf
    simp only [bitLenAux, if_neg (by omega : ¬n = 0)]
    by_cases h3 : n / 2 = 0
    · have hone : n = 1 := by omega
      subst hone
      rw [show (1 : Nat) / 2 = 0 from rfl, bitLenAux_zero]
      simp
    · have h4 : 0 < n / 2 := Nat.pos_of_ne_zero h3
      have h5 : n / 2 ≤ fuel := by omega
      obtain ⟨ha, hb⟩ := ih (n / 2) h4 h5
      have hL : 1 ≤ bitLenAux fuel (n / 2) := by
        by_contra hc
        have h0 : bitLenAux fuel (n / 2) = 0 := by omega
        rw [h0] at hb
        omega
      set L := bitLenAux fuel (n / 2) with hLdef
      have p2 : 2 ^ L = 2 * 2 ^ (L - 1) := by
        conv_lhs => rw [show L = (L - 1) + 1 by omega]
        rw [pow_succ]
        ring
      have p3 : 2 ^ (L + 1) = 2 * 2 ^ L := by rw [pow_succ]; ring
      rw [Nat.add_sub_cancel]
      omega

theorem bitLen_spec (n : Nat) (hn : 0 < n) :
    2 ^ (bitLen n - 1) ≤ n ∧ n < 2 ^ bitLen n :=
  bitLenAux_spec n n hn le_rfl

theorem rheDiv_spec (P Q : Nat) (hQ : 0 < Q) :
    2 * ((rheDiv P Q : Int) * Q - P).natAbs ≤ Q := by
  have hmod : P % Q < Q := Nat.mod_lt P hQ
  have hcast : (Q : Int) * ((P / Q : Nat) : Int) + ((P % Q : Nat) : Int) = P := by
    exact_mod_cast Nat.div_add_mod P Q
  unfold rheDiv
  split_ifs with c1 c2 c3
  · have e1 : ((P / Q : Nat) : Int) * Q - P = -((P % Q : Nat) : Int) := by
      linear_combination hcast
    rw [e1]
    omega
  · have e2 : (((P / Q + 1 : Nat)) : Int) * Q - P = (Q : Int) - ((P % Q : Nat) : Int) := by
      rw [Nat.cast_add, Nat.cast_one]
      linear_combination hcast
    rw [e2]
    omega
  · have e1 : ((P / Q : Nat) : Int) * Q - P = -((P % Q : Nat) : Int) := by
      linear_combination hcast
    rw [e1]
    omega
  · have e2 : (((P / Q + 1 : Nat)) : Int) * Q - P = (Q : Int) - ((P % Q : Nat) : Int) := by
      rw [Nat.cast_add, Nat.cast_one]
      linear_combination hcast
    rw [e2]
    omega

theorem two_zpow_pos (e : Int) : (0:ℚ) < (2:ℚ) ^ e := by positivity

theorem two_zpow_ne_zero (e : Int) : (2:ℚ) ^ e ≠ 0 := ne_of_gt (two_zpow_pos e)

theorem two_ne_zero_q : (2:ℚ) ≠ 0 := by norm_num

theorem cast_two_pow (n : Nat) : ((2 ^ n : Nat) : ℚ) = (2:ℚ) ^ (n : Int) := by
  push_cast
  rw [zpow_natCast]

theorem cast_two_pow_toNat (t : Int) (h : 0 ≤ t) :
    ((2 ^ t.toNat : Nat) : ℚ) = (2:ℚ) ^ t := by
  rw [cast_two_pow, Int.toNat_of_nonneg h]

theorem expOf_le (a q : Nat) (ha : 0 < a) (hq : 0 < q) :
    (2:ℚ) ^ expOf a q ≤ (a : ℚ) / (q : ℚ) := by
  have hq0 : (0:ℚ) < (q:ℚ) := by exact_mod_cast hq
  rw [le_div_iff₀ hq0]
  obtain ⟨ha1, ha2⟩ := bitLen_spec a ha
  obtain ⟨hq1, hq2⟩ := bitLen_spec q hq
  unfold expOf
  set d : Int := (bitLen a : Int) - (bitLen q : Int) with hd
  by_cases hc : pow2le a q d
  · rw [if_pos hc]
    unfold pow2le at hc
    by_cases ht : 0 ≤ d
    · rw [if_pos ht] at hc
      simp only [decide_eq_true_eq] at hc
      have hc2 : ((q * 2 ^ d.toNat : Nat) : ℚ) ≤ (a : ℚ) := by exact_mod_cast hc
      rw [Nat.cast_mul, cast_two_pow_toNat d ht] at hc2
      calc (2:ℚ) ^ d * q = (q:ℚ) * (2:ℚ) ^ d := mul_comm _ _
        _ ≤ a := hc2
    · rw [if_neg ht] at hc
      simp only [decide_eq_true_eq] at hc
      have hc2 : (q : ℚ) ≤ (a : ℚ) * (2:ℚ) ^ (-d) := by
        have hcq := (Nat.cast_le (α := ℚ)).mpr hc
        rwa [Nat.cast_mul, cast_two_pow_toNat (-d) (by omega)] at hcq
      calc (2:ℚ) ^ d * q
          ≤ (2:ℚ) ^ d * ((a:ℚ) * (2:ℚ) ^ (-d)) :=
            mul_le_mul_of_nonneg_left hc2 (le_of_lt (two_zpow_pos d))
        _ = a := by
            rw [mul_comm ((a:ℚ)) _, ← mul_assoc, ← zpow_add₀ two_ne_zero_q]
            simp
  · rw [if_neg hc]
    have hLa : 1 ≤ bitLen a := by
      by_contra hcc
      have h0 : bitLen a = 0 := by omega
      rw [h0] at ha2
      omega
    have hA : ((2 ^ (bitLen a - 1) : Nat) : ℚ) ≤ (a:ℚ) := by exact_mod_cast ha1
    have hQ2 : (q:ℚ) ≤ ((2 ^ bitLen q : Nat) : ℚ) := by exact_mod_cast le_of_lt hq2
    have key : (2:ℚ) ^ (d - 1) * ((2 ^ bitLen q : Nat) : ℚ)
        = ((2 ^ (bitLen a - 1) : Nat) : ℚ) := by
      rw [cast_two_pow, cast_two_pow, ← zpow_add₀ two_ne_zero_q]
      congr 1
      omega
    calc (2:ℚ) ^ (d - 1) * (q:ℚ)
        ≤ (2:ℚ) ^ (d - 1) * ((2 ^ bitLen q : Nat) : ℚ) :=
          mul_le_mul_of_nonneg_left hQ2 (le_of_lt (two_zpow_pos _))
      _ = ((2 ^ (bitLen a - 1) : Nat) : ℚ) := key
      _ ≤ a := hA

theorem rhe_err_q (P Q : Nat) (hQ : 0 < Q) :
    |((rheDiv P Q : Nat) : ℚ) - (P:ℚ) / Q| ≤ 1 / 2 := by
  have hq0 : (0:ℚ) < (Q:ℚ) := by exact_mod_cast hQ
  have hint : 2 * |(rheDiv P Q : Int) * Q - P| ≤ (Q : Int) := by
    rw [Int.abs_eq_natAbs]
    exact_mod_cast rheDiv_spec P Q hQ
  have hqq : 2 * |(((rheDiv P Q : Int) * Q - P : Int) : ℚ)| ≤ (Q:ℚ) := by
    rw [← Int.cast_abs]
    exact_mod_cast hint
  have hrw : ((rheDiv P Q : Nat) : ℚ) - (P:ℚ) / Q
      = (((rheDiv P Q : Int) * Q - P : Int) : ℚ) / Q := by
    push_cast
    field_simp
  rw [hrw, abs_div, abs_of_pos hq0, div_le_div_iff₀ hq0 (by norm_num : (0:ℚ) < 2)]
  linarith

theorem rhe_scaled_err (P Q : Nat) (hQ : 0 < Q) (x : ℚ) (e : Int)
    (hxv : (P : ℚ) / Q = x * (2:ℚ) ^ ((52:Int) - e)) :
    |((rheDiv P Q : Nat) : ℚ) * (2:ℚ) ^ (e - 52) - x| ≤ (2:ℚ) ^ (e - 53) := by
  have hx : x = (P:ℚ) / Q * (2:ℚ) ^ (e - 52) := by
    rw [hxv, mul_assoc, ← zpow_add₀ two_ne_zero_q,
      show (52:Int) - e + (e - 52) = 0 by ring, zpow_zero, mul_one]
  rw [hx, ← sub_mul, abs_mul, abs_of_pos (two_zpow_pos _)]
  calc |((rheDiv P Q : Nat) : ℚ) - (P:ℚ)/Q| * (2:ℚ) ^ (e - 52)
      ≤ 1 / 2 * (2:ℚ) ^ (e - 52) :=
        mul_le_mul_of_nonneg_right (rhe_err_q P Q hQ) (le_of_lt (two_zpow_pos _))
    _ = (2:ℚ) ^ (e - 53) := by
        rw [show (e : Int) - 53 = -1 + (e - 52) by ring, zpow_add₀ two_ne_zero_q,
          zpow_neg_one, one_div]

theorem roundPos_err (a q : Nat) (hq : 0 < q) :
    |(roundPos a q).val - (a : ℚ) / q| ≤ (a : ℚ) / q * (2:ℚ) ^ (-53 : Int) := by
  by_cases ha : a = 0
  · subst ha
    simp [roundPos, Dy.val]
  · have ha0 : 0 < a := Nat.pos_of_ne_zero ha
    have hq0 : (0:ℚ) < (q:ℚ) := by exact_mod_cast hq
    have hexp := expOf_le a q ha0 hq
    have hgrid : (2:ℚ) ^ (expOf a q - 53) ≤ (a:ℚ) / q * (2:ℚ) ^ (-53:Int) := by
      rw [show expOf a q - 53 = expOf a q + -53 from sub_eq_add_neg _ _,
        zpow_add₀ two_ne_zero_q]
      exact mul_le_mul_of_nonneg_right hexp (le_of_lt (two_zpow_pos _))
    unfold roundPos
    rw [if_neg ha]
    by_cases hle : expOf a q ≤ 52
    · rw [if_pos hle]
      have hval : (Dy.mk ((rheDiv (a * 2 ^ (52 - expOf a q).toNat) q : Nat))
            (expOf a q - 52)).val
          = ((rheDiv (a * 2 ^ (52 - expOf a q).toNat) q : Nat) : ℚ)
            * (2:ℚ) ^ (expOf a q - 52) := by
        simp [Dy.val]
      rw [hval]
      refine le_trans (rhe_scaled_err _ q hq ((a:ℚ)/q) (expOf a q) ?_) hgrid
      rw [Nat.cast_mul, cast_two_pow_toNat _ (by omega), mul_div_right_comm]
    · rw [if_neg hle]
      have hQ2 : 0 < q * 2 ^ (expOf a q - 52).toNat := by positivity
      have hval : (Dy.mk ((rheDiv a (q * 2 ^ (expOf a q - 52).toNat) : Nat))
            (expOf a q - 52)).val
          = ((rheDiv a (q * 2 ^ (expOf a q - 52).toNat) : Nat) : ℚ)
            * (2:ℚ) ^ (expOf a q - 52) := by
        simp [Dy.val]
      rw [hval]
      refine le_trans (rhe_scaled_err a _ hQ2 ((a:ℚ)/q) (expOf a q) ?_) hgrid
      rw [Nat.cast_mul, cast_two_pow_toNat _ (by omega), div_mul_eq_div_div,
        div_eq_mul_inv ((a:ℚ)/q), ← zpow_neg,
        show -(expOf a q - 52) = 52 - expOf a q by ring]

theorem roundRat_err (p : Int) (q : Nat) (hq : 0 < q) :
    |(roundRat p q).val - (p : ℚ) / q| ≤ |(p : ℚ) / q| * (2:ℚ) ^ (-53 : Int) := by
  have hq0 : (0:ℚ) < (q:ℚ) := by exact_mod_cast hq
  by_cases hp : 0 ≤ p
  · unfold roundRat
    rw [if_pos hp]
    have hcast : ((p.toNat : Nat) : ℚ) = (p : ℚ) := by
      exact_mod_cast Int.toNat_of_nonneg hp
    have h := roundPos_err p.toNat q hq
    rw [hcast] at h
    rwa [abs_of_nonneg (div_nonneg (by exact_mod_cast hp) (le_of_lt hq0))]
  · unfold roundRat
    rw [if_neg hp]
    push_neg at hp
    have hcast : (((-p).toNat : Nat) : ℚ) = -(p : ℚ) := by
      have h0 : ((-p).toNat : Int) = -p := Int.toNat_of_nonneg (by omega)
      exact_mod_cast h0
    have h := roundPos_err (-p).toNat q hq
    rw [hcast] at h
    have hneg : (Dy.mk (-(roundPos (-p).toNat q).m) ((roundPos (-p).toNat q).e)).val
        = -((roundPos (-p).toNat q).val) := by
      simp [Dy.val]
    rw [hneg]
    have key : |-(roundPos (-p).toNat q).val - (p:ℚ)/q|
        = |(roundPos (-p).toNat q).val - -(p:ℚ)/q| := by
      rw [← abs_neg]
      congr 1
      ring
    rw [key]
    refine le_trans h (le_of_eq ?_)
    rw [abs_div, abs_of_neg (show (p:ℚ) < 0 by exact_mod_cast hp), abs_of_pos hq0,
      neg_div]

theorem floatOfInt_err (n : Int) :
    |(floatOfInt n).val - (n : ℚ)| ≤ |(n : ℚ)| * (2:ℚ) ^ (-53 : Int) := by
  have h := roundRat_err n 1 (by norm_num)
  simpa using h

theorem floatDivNat_err (x : Dy) (n : Nat) (hn : 0 < n) :
    |(floatDivNat x n).val - x.val / n| ≤ |x.val / n| * (2:ℚ) ^ (-53 : Int) := by
  unfold floatDivNat
  by_cases he : 0 ≤ x.e
  · rw [if_pos he]
    have h := roundRat_err (x.m * 2 ^ x.e.toNat) n hn
    have hv : ((x.m * 2 ^ x.e.toNat : Int) : ℚ) = x.val := by
      unfold Dy.val
      push_cast
      rw [← zpow_natCast (2:ℚ) x.e.toNat, Int.toNat_of_nonneg he]
    rw [hv] at h
    exact h
  · rw [if_neg he]
    push_neg at he
    have hn2 : 0 < n * 2 ^ (-x.e).toNat := by positivity
    have h := roundRat_err x.m (n * 2 ^ (-x.e).toNat) hn2
    have hcancel : (2:ℚ) ^ x.e * (2:ℚ) ^ (-x.e) = 1 := by
      rw [← zpow_add₀ two_ne_zero_q, show x.e + -x.e = 0 by ring, zpow_zero]
    have hv : (x.m : ℚ) / ((n * 2 ^ (-x.e).toNat : Nat) : ℚ) = x.val / n := by
      unfold Dy.val
      rw [Nat.cast_mul, cast_two_pow_toNat _ (by omega)]
      rw [div_eq_div_iff (by positivity) (by positivity)]
      linear_combination (-(x.m : ℚ) * (n : ℚ)) * hcancel
    rw [hv] at h
    exact h

theorem floatAdd_err (x y : Dy) :
    |(floatAdd x y).val - (x.val + y.val)| ≤ |x.val + y.val| * (2:ℚ) ^ (-53 : Int) := by
  unfold floatAdd
  set emin := min x.e y.e with hemin
  set s : Int := x.m * 2 ^ (x.e - emin).toNat + y.m * 2 ^ (y.e - emin).toNat with hs
  have hsval : (s : ℚ) * (2:ℚ) ^ emin = x.val + y.val := by
    rw [hs]
    push_cast
    rw [← zpow_natCast (2:ℚ) (x.e - emin).toNat, ← zpow_natCast (2:ℚ) (y.e - emin).toNat,
      Int.toNat_of_nonneg (by omega : (0:Int) ≤ x.e - emin),
      Int.toNat_of_nonneg (by omega : (0:Int) ≤ y.e - emin)]
    unfold Dy.val
    rw [add_mul, mul_assoc, mul_assoc, ← zpow_add₀ two_ne_zero_q,
      ← zpow_add₀ two_ne_zero_q, sub_add_cancel, sub_add_cancel]
  by_cases he : 0 ≤ emin
  · rw [if_pos he]
    have h := roundRat_err (s * 2 ^ emin.toNat) 1 (by norm_num)
    have hv : ((s * 2 ^ emin.toNat : Int) : ℚ) / ((1:Nat):ℚ) = x.val + y.val := by
      rw [Nat.cast_one, div_one]
      push_cast
      rw [← zpow_natCast (2:ℚ) emin.toNat, Int.toNat_of_nonneg he]
      exact hsval
    rw [hv] at h
    exact h
  · rw [if_neg he]
    have hpos : 0 < 2 ^ (-emin).toNat := by positivity
    have h := roundRat_err s (2 ^ (-emin).toNat) hpos
    have hv : (s : ℚ) / ((2 ^ (-emin).toNat : Nat) : ℚ) = x.val + y.val := by
      rw [cast_two_pow_toNat _ (by omega), ← hsval,
        div_eq_iff (two_zpow_ne_zero _), mul_assoc, ← zpow_add₀ two_ne_zero_q,
        show emin + -emin = 0 by ring, zpow_zero, mul_one]
    rw [hv] at h
    exact h

theorem truncDy_eq_zero (x : Dy) (h : |x.val| < 1) : truncDy x = 0 := by
  unfold truncDy
  by_cases he : 0 ≤ x.e
  · rw [if_pos he]
    have hcast : ((x.m * 2 ^ x.e.toNat : Int) : ℚ) = x.val := by
      unfold Dy.val
      push_cast
      rw [← zpow_natCast (2:ℚ) x.e.toNat, Int.toNat_of_nonneg he]
    have h1 : |((x.m * 2 ^ x.e.toNat : Int) : ℚ)| < 1 := by rw [hcast]; exact h
    have h2 : |x.m * 2 ^ x.e.toNat| < 1 := by exact_mod_cast h1
    have h3 := abs_lt.mp h2
    omega
  · rw [if_neg he]
    push_neg at he
    have hcast : ((-x.e).toNat : Int) = -x.e := Int.toNat_of_nonneg (by omega)
    have h1 : |(x.m : ℚ)| < ((2 ^ (-x.e).toNat : Nat) : ℚ) := by
      rw [cast_two_pow_toNat _ (by omega)]
      have hval : |x.val| = |(x.m:ℚ)| * (2:ℚ) ^ x.e := by
        unfold Dy.val
        rw [abs_mul, abs_of_pos (two_zpow_pos _)]
      rw [hval] at h
      have h3 : |(x.m:ℚ)| * (2:ℚ) ^ x.e * (2:ℚ) ^ (-x.e) < 1 * (2:ℚ) ^ (-x.e) :=
        mul_lt_mul_of_pos_right h (two_zpow_pos _)
      rw [mul_assoc, ← zpow_add₀ two_ne_zero_q, show x.e + -x.e = 0 by ring,
        zpow_zero, mul_one, one_mul] at h3
      exact h3
    have h2 : |x.m| < 2 ^ (-x.e).toNat := by exact_mod_cast h1
    have h3 := abs_lt.mp h2
    exact tdiv_zero_of_small _ _ h3.1 h3.2

theorem abs_step (v w B : ℚ) (herr : |v - w| ≤ |w| * (2:ℚ) ^ (-53:Int)) (hB : |w| ≤ B) :
    |v| ≤ B * (1 + (2:ℚ) ^ (-53:Int)) := by
  have hu : (0:ℚ) ≤ (2:ℚ) ^ (-53:Int) := le_of_lt (two_zpow_pos _)
  have h1 : |v| - |w| ≤ |w| * (2:ℚ) ^ (-53:Int) :=
    le_trans (abs_sub_abs_le_abs_sub v w) herr
  have h2 := mul_le_mul_of_nonneg_right hB hu
  linarith

theorem ttlSeconds_eq_zero (ttl : Int) (h1 : -nsPerSecond < ttl) (h2 : ttl < nsPerSecond) :
    ttlSeconds ttl = 0 := by
  have hsec : ttl.tdiv nsPerSecond = 0 := tdiv_zero_of_small ttl nsPerSecond h1 h2
  have hmod : ttl.tmod nsPerSecond = ttl := tmod_small ttl nsPerSecond h1 h2
  unfold ttlSeconds durationSecondsF
  rw [hsec, hmod]
  have hc1 : (floatOfInt 0).val = 0 := by
    simp [floatOfInt, roundRat, roundPos, Dy.val]
  have hbt : |(ttl:ℚ)| ≤ 999999999 := by
    have hb0 : -(999999999:Int) ≤ ttl ∧ ttl ≤ 999999999 := by
      unfold nsPerSecond at h1 h2
      omega
    rw [abs_le]
    constructor
    · exact_mod_cast hb0.1
    · exact_mod_cast hb0.2
  have hb2 : |(floatOfInt ttl).val| ≤ 999999999 * (1 + (2:ℚ) ^ (-53:Int)) :=
    abs_step _ _ _ (floatOfInt_err ttl) hbt
  have hnq : ((nsPerSecondNat : Nat) : ℚ) = 1000000000 := by
    unfold nsPerSecondNat
    norm_num
  have hbq : |(floatOfInt ttl).val / ((nsPerSecondNat : Nat) : ℚ)|
      ≤ 999999999 * (1 + (2:ℚ) ^ (-53:Int)) / 1000000000 := by
    rw [abs_div, hnq, abs_of_pos (by norm_num : (0:ℚ) < 1000000000)]
    exact (div_le_div_iff_of_pos_right (by norm_num : (0:ℚ) < 1000000000)).mpr hb2
  have hb3 : |(floatDivNat (floatOfInt ttl) nsPerSecondNat).val|
      ≤ 999999999 * (1 + (2:ℚ) ^ (-53:Int)) / 1000000000 * (1 + (2:ℚ) ^ (-53:Int)) :=
    abs_step _ _ _ (floatDivNat_err (floatOfInt ttl) nsPerSecondNat (by norm_num [nsPerSecondNat])) hbq
  have hc4 := floatAdd_err (floatOfInt 0) (floatDivNat (floatOfInt ttl) nsPerSecondNat)
  rw [hc1, zero_add] at hc4
  have hb4 : |(floatAdd (floatOfInt 0) (floatDivNat (floatOfInt ttl) nsPerSecondNat)).val|
      ≤ 999999999 * (1 + (2:ℚ) ^ (-53:Int)) / 1000000000 * (1 + (2:ℚ) ^ (-53:Int))
        * (1 + (2:ℚ) ^ (-53:Int)) :=
    abs_step _ _ _ hc4 hb3
  apply truncDy_eq_zero
  apply lt_of_le_of_lt hb4
  have hu : (2:ℚ) ^ (-53:Int) = 1 / 9007199254740992 := by
    rw [zpow_neg]
    norm_num
  rw [hu]
  norm_num

theorem foldl_add_eq_sum (g : String × Item → Nat) (l : List (String × Item)) :
    ∀ a : Nat, l.foldl (fun acc kv => acc + g kv) a = a + (l.map g).sum := by
  induction l with
  | nil => intro a; simp
  | cons kv rest ih =>
    intro a
    simp only [List.foldl_cons, List.map_cons, List.sum_cons, ih]
    omega

theorem filter_self_idem (p : String × Item → Bool) (l : List (String × Item)) :
    (l.filter p).filter p = l.filter p := by
  rw [List.filter_filter]
  exact List.filter_congr fun a _ => Bool.and_self _

theorem map_save_load_id (l : List (String × Item)) :
    ((l.map fun kv => ((kv.1 : String), kv.2.data, kv.2.destroyTimestamp)).map
      fun t => ((t.1 : String), (⟨t.2.2, t.2.1⟩ : Item))) = l := by
  induction l with
  | nil => rfl
  | cons kv rest ih =>
    simp only [List.map_cons]
    rw [ih]

theorem size_eq_sum (c : Cache) :
    c.size = (c.storage.map fun kv =>
      isize (.vstr kv.1) + isize kv.2.data + isize (.vint64 kv.2.destroyTimestamp)).sum := by
  have h := foldl_add_eq_sum
    (fun kv => isize (.vstr kv.1) + isize kv.2.data + isize (.vint64 kv.2.destroyTimestamp))
    c.storage 0
  simpa [Cache.size] using h

theorem slookup_cleanup (c : Cache) (now : Int) (key : String) (hwf : c.wf) :
    slookup key (c.cleanup now).storage =
      (slookup key c.storage).bind
        fun item => if !decide (item.destroyTimestamp ≤ now) then some item else none :=
  slookup_filter (fun item => !decide (item.destroyTimestamp ≤ now)) key c.storage hwf

/-! Claim theorems. -/

/-- C1: Set (named `Add` in the source) followed immediately by Get returns
the stored value with found = true regardless of the ttl's sign; Get
returns the stored data and true whenever the key is present — expiry is
never consulted — and returns (nil, false) exactly when the key is
absent. -/
theorem get_returns_present_regardless_of_expiry (c : Cache) (now : Int) (key : String)
    (v : GoVal) (ttl : Int) :
    (c.add now key v ttl).get key = (v, true)
    ∧ (∀ item : Item, slookup key c.storage = some item → c.get key = (item.data, true))
    ∧ (slookup key c.storage = none → c.get key = (.vnil, false)) := by
  refine ⟨?_, ?_, ?_⟩
  · simp [Cache.add, Cache.get, slookup_mapSet_self]
  · intro item h
    simp [Cache.get, h]
  · intro h
    simp [Cache.get, h]

/-- Witness for C1 at concrete inputs: a negative ttl on a fresh cache, a
stored entry whose expiry (9) is far in the past of its lookup, and an
absent key. -/
theorem get_returns_present_regardless_of_expiry_witness :
    ((Cacher (-1)).add 100 "k" (.vstr "hi") (-7000000000)).get "k" = (.vstr "hi", true)
    ∧ (Cache.mk [("b", ⟨9, .vbool true⟩)] 0).get "b" = (.vbool true, true)
    ∧ (Cache.mk [("b", ⟨9, .vbool true⟩)] 0).get "a" = (.vnil, false) :=
  ⟨(get_returns_present_regardless_of_expiry (Cacher (-1)) 100 "k" (.vstr "hi")
      (-7000000000)).1,
   (get_returns_present_regardless_of_expiry (Cache.mk [("b", ⟨9, .vbool true⟩)] 0)
      100 "b" .vnil 0).2.1 ⟨9, .vbool true⟩ rfl,
   (get_returns_present_regardless_of_expiry (Cache.mk [("b", ⟨9, .vbool true⟩)] 0)
      100 "a" .vnil 0).2.2 rfl⟩

/-- C2: Cleanup removes exactly the entries whose destroyTimestamp is at or
before now, leaves every entry with a strictly later destroyTimestamp in
place unchanged, and keeps absent keys absent. -/
theorem cleanup_removes_exactly_expired (c : Cache) (now : Int) (key : String)
    (hwf : c.wf) :
    (∀ item : Item, slookup key c.storage = some item →
        slookup key (c.cleanup now).storage =
          if item.destroyTimestamp ≤ now then none else some item)
    ∧ (slookup key c.storage = none → slookup key (c.cleanup now).storage = none) := by
  constructor
  · intro item h
    rw [slookup_cleanup c now key hwf, h]
    by_cases hle : item.destroyTimestamp ≤ now <;> simp [hle]
  · intro h
    rw [slookup_cleanup c now key hwf, h]
    rfl

/-- Witness for C2: a cache holding an expired entry ("a", expiry 5) and a
live entry ("b", expiry 200); Cleanup at instant 100 removes exactly the
first. -/
theorem cleanup_removes_exactly_expired_witness :
    (Cache.mk [("a", ⟨5, .vint 1⟩), ("b", ⟨200, .vint 2⟩)] (-1)).wf
    ∧ slookup "a"
        ((Cache.mk [("a", ⟨5, .vint 1⟩), ("b", ⟨200, .vint 2⟩)] (-1)).cleanup 100).storage
        = none
    ∧ slookup "b"
        ((Cache.mk [("a", ⟨5, .vint 1⟩), ("b", ⟨200, .vint 2⟩)] (-1)).cleanup 100).storage
        = some ⟨200, .vint 2⟩ := by
  have hwf : (Cache.mk [("a", ⟨5, .vint 1⟩), ("b", ⟨200, .vint 2⟩)] (-1)).wf := by decide
  refine ⟨hwf, ?_, ?_⟩
  · rw [(cleanup_removes_exactly_expired _ 100 "a" hwf).1 ⟨5, .vint 1⟩ rfl]
    rfl
  · rw [(cleanup_removes_exactly_expired _ 100 "b" hwf).1 ⟨200, .vint 2⟩ rfl]
    rfl

/-- C4: Delete on an absent key returns the "key not found" error and hands
back the cache completely unchanged, so Count is unaffected. -/
theorem delete_absent_key_error_unchanged (c : Cache) (key : String)
    (h : slookup key c.storage = none) :
    c.delete key = (some "key not found", c) ∧ ((c.delete key).2).count = c.count := by
  have hd : c.delete key = (some "key not found", c) := by
    simp [Cache.delete, h]
  exact ⟨hd, by rw [hd]⟩

/-- Witness for C4: deleting the absent key "b" from a one-entry cache. -/
theorem delete_absent_key_error_unchanged_witness :
    slookup "b" (Cache.mk [("a", ⟨5, .vint 1⟩)] (-1)).storage = none
    ∧ (Cache.mk [("a", ⟨5, .vint 1⟩)] (-1)).delete "b"
        = (some "key not found", Cache.mk [("a", ⟨5, .vint 1⟩)] (-1)) :=
  ⟨rfl, (delete_absent_key_error_unchanged (Cache.mk [("a", ⟨5, .vint 1⟩)] (-1)) "b" rfl).1⟩

/-- C5: Add on an already-present key replaces both the data and the
expiry: the key's entry becomes a brand-new Item holding the new data and a
freshly computed destroyTimestamp of now plus the ttl in whole seconds —
the old entry's expiry plays no role. -/
theorem add_replaces_value_and_expiry (c : Cache) (now : Int) (key : String) (v : GoVal)
    (ttl : Int) (_hpresent : (slookup key c.storage).isSome = true) :
    slookup key (c.add now key v ttl).storage = some ⟨now + ttlSeconds ttl, v⟩ := by
  simp [Cache.add, slookup_mapSet_self]

/-- Witness for C5: replacing the live binding of "a" (expiry 5) at instant
100 with a 60-second ttl yields expiry 160 and the new data. -/
theorem add_replaces_value_and_expiry_witness :
    (slookup "a" (Cache.mk [("a", ⟨5, .vint 1⟩)] (-1)).storage).isSome = true
    ∧ slookup "a"
        ((Cache.mk [("a", ⟨5, .vint 1⟩)] (-1)).add 100 "a" (.vint 2) 60000000000).storage
        = some ⟨160, .vint 2⟩ := by
  refine ⟨rfl, ?_⟩
  rw [add_replaces_value_and_expiry (Cache.mk [("a", ⟨5, .vint 1⟩)] (-1)) 100 "a"
    (.vint 2) 60000000000 rfl]
  rfl

/-- C6: Cleanup is idempotent — running it twice at the same instant with
no insertions in between leaves exactly the state of running it once. -/
theorem cleanup_idempotent (c : Cache) (now : Int) :
    (c.cleanup now).cleanup now = c.cleanup now := by
  simp only [Cache.cleanup]
  rw [filter_self_idem]

/-- C9: frame — a Delete of one key and an Add to one key each leave every
other key's binding (data and destroyTimestamp) exactly as it was. -/
theorem delete_add_frame (c : Cache) (now : Int) (key key2 : String) (v : GoVal)
    (ttl : Int) (hne : key2 ≠ key) :
    slookup key2 ((c.delete key).2).storage = slookup key2 c.storage
    ∧ slookup key2 (c.add now key v ttl).storage = slookup key2 c.storage := by
  constructor
  · by_cases h : (slookup key c.storage).isSome = true
    · simp only [Cache.delete, if_pos h]
      exact slookup_mapDelete_ne key key2 c.storage hne
    · simp [Cache.delete, h]
  · simp only [Cache.add]
    exact slookup_mapSet_ne key key2 _ c.storage hne

/-- Witness for C9: deleting "a" and overwriting "a" both leave the binding
of "b" untouched in a two-entry cache. -/
theorem delete_add_frame_witness :
    slookup "b"
        (((Cache.mk [("a", ⟨5, .vint 1⟩), ("b", ⟨200, .vint 2⟩)] 0).delete "a").2).storage
      = some ⟨200, .vint 2⟩
    ∧ slookup "b"
        ((Cache.mk [("a", ⟨5, .vint 1⟩), ("b", ⟨200, .vint 2⟩)] 0).add 100 "a" .vnil 0).storage
      = some ⟨200, .vint 2⟩ := by
  have h := delete_add_frame (Cache.mk [("a", ⟨5, .vint 1⟩), ("b", ⟨200, .vint 2⟩)] 0)
    100 "a" "b" .vnil 0 (by decide)
  exact ⟨by rw [h.1]; rfl, by rw [h.2]; rfl⟩

/-- C8 (amended): Add stores destroyTimestamp = now (whole Unix seconds)
plus int64(ttl.Seconds()) computed in binary64 floating point — which
agrees with exact truncation toward zero for sub-second ttls, though not
for every ttl; consequently any ttl strictly between -1s and 1s (in
nanoseconds) stores destroyTimestamp = now, and Cleanup at that same
instant removes the entry. -/
theorem add_truncates_ttl_to_seconds (c : Cache) (now : Int) (key : String) (v : GoVal)
    (ttl : Int) (hwf : c.wf) :
    slookup key (c.add now key v ttl).storage = some ⟨now + ttlSeconds ttl, v⟩
    ∧ (-nsPerSecond < ttl → ttl < nsPerSecond →
        slookup key (c.add now key v ttl).storage = some ⟨now, v⟩
        ∧ slookup key ((c.add now key v ttl).cleanup now).storage = none) := by
  have hadd : slookup key (c.add now key v ttl).storage = some ⟨now + ttlSeconds ttl, v⟩ := by
    simp [Cache.add, slookup_mapSet_self]
  refine ⟨hadd, fun h1 h2 => ?_⟩
  have hz : ttlSeconds ttl = 0 := ttlSeconds_eq_zero ttl h1 h2
  have hadd0 : slookup key (c.add now key v ttl).storage = some ⟨now, v⟩ := by
    rw [hadd, hz, Int.add_zero]
  refine ⟨hadd0, ?_⟩
  have hwf2 : (c.add now key v ttl).wf := mapSet_wf key _ c.storage hwf
  rw [slookup_cleanup _ now key hwf2, hadd0]
  simp

/-- Witness for C8: a 500-millisecond ttl at instant 1000 stores expiry
1000 exactly, and Cleanup at instant 1000 already removes the entry. -/
theorem add_truncates_ttl_to_seconds_witness :
    (Cacher (-1)).wf
    ∧ (-nsPerSecond < (500000000 : Int) ∧ (500000000 : Int) < nsPerSecond)
    ∧ slookup "k" ((Cacher (-1)).add 1000 "k" (.vint 3) 500000000).storage
        = some ⟨1000, .vint 3⟩
    ∧ slookup "k" (((Cacher (-1)).add 1000 "k" (.vint 3) 500000000).cleanup 1000).storage
        = none := by
  have h := add_truncates_ttl_to_seconds (Cacher (-1)) 1000 "k" (.vint 3) 500000000
    (by decide)
  have h2 := h.2 (by decide) (by decide)
  exact ⟨by decide, ⟨by decide, by decide⟩, h2.1, h2.2⟩

/-- Counterexample for C8 as frozen: at ttl = 16777216999999999ns the code
stores now + 16777217, not now + 16777216 as the exact truncation formula
says, because the float64 sum 16777216.0 + 999999999.0/1e9 rounds up to
exactly 16777217.0 (the addends straddle 2^24, where the binary64 grid
spacing exceeds 2·10^-9) before the int64 conversion truncates. -/
theorem add_ttl_truncation_counterexample :
    ttlSeconds 16777216999999999 = 16777217
    ∧ (0:Int) + Int.tdiv 16777216999999999 nsPerSecond = 16777216
    ∧ slookup "k" ((Cacher (-1)).add 0 "k" .vnil 16777216999999999).storage
        = some ⟨16777217, .vnil⟩
    ∧ slookup "k" ((Cacher (-1)).add 0 "k" .vnil 16777216999999999).storage
        ≠ some ⟨(0:Int) + Int.tdiv 16777216999999999 nsPerSecond, .vnil⟩ := by
  refine ⟨by decide, by decide, rfl, ?_⟩
  intro hcontra
  have h1 : (some (⟨16777217, GoVal.vnil⟩ : Item) : Option Item)
      = some ⟨(0:Int) + Int.tdiv 16777216999999999 nsPerSecond, GoVal.vnil⟩ := hcontra
  have h2 := congrArg (fun o : Option Item => o.elim 0 Item.destroyTimestamp) h1
  simp only [Option.elim] at h2
  exact absurd h2 (by decide)

/-- C3: snapshot round-trip — loading the dump produced by Save on a source
cache into any other, pre-populated cache replaces the destination's whole
mapping with exactly the source's entries (same keys, data and
destroyTimestamps, expired-but-unswept ones included), so every
pre-existing destination key not in the dump is gone. -/
theorem load_save_roundtrip (src dst : Cache) :
    (dst.load src.save).storage = src.storage
    ∧ ∀ key : String, slookup key (dst.load src.save).storage = slookup key src.storage := by
  have h : (dst.load src.save).storage = src.storage := map_save_load_id src.storage
  exact ⟨h, fun key => by rw [h]⟩

/-- C10: the size walk counts nil as 0 bytes and empty strings, slices,
arrays and maps as 0 bytes (container headers are never counted), and the
cache's Size is the sum over entries of the key's byte length plus the
data's isize plus 8 bytes for the int64 destroyTimestamp. -/
theorem size_accounting (c : Cache) :
    isize .vnil = 0
    ∧ isize (.vstr "") = 0
    ∧ isize (.vslice []) = 0
    ∧ isize (.varray []) = 0
    ∧ isize (.vmap []) = 0
    ∧ c.size = (c.storage.map fun kv => kv.1.utf8ByteSize + isize kv.2.data + 8).sum := by
  refine ⟨by simp [isize], ?_, by simp [isize], by simp [isize], by simp [isize], ?_⟩
  · simp only [isize]
    rfl
  · rw [size_eq_sum]
    exact congrArg List.sum (List.map_congr_left fun kv _ => by simp [isize])

end Candycache
